import Mathlib

/-!
Verification of the NanoChat Mobile core (`src/nanochat-mobile-complete.js`):
the Ledger (`Blockchain` class), the ContractEngine (`SmartContract` class),
the ChatRelay (`Chat` class) and the cryptographic envelope (`CryptoUtils`).

The JavaScript source is embedded shallowly: each class becomes a structure,
each method a pure function taking the state (and the values returned by the
`Date.now()` calls it performs) and returning the new state and result.
-/

namespace NanoChat

/-- A ledger transaction, as pushed by `Blockchain.createTransaction`:
`{ sender, receiver, amount }`. -/
structure Transaction where
  sender : String
  receiver : String
  amount : Int
  deriving DecidableEq, Repr

/-- Canonical serialization of one transaction, standing in for its
`JSON.stringify` rendering inside `calculateHash`. -/
def serializeTx (t : Transaction) : String :=
  "tx|" ++ t.sender ++ "|" ++ t.receiver ++ "|" ++ toString t.amount

/-- Canonical serialization of a transaction list. -/
def serializeTxs (ts : List Transaction) : String :=
  String.intercalate ";" (ts.map serializeTx)

/-- Embedding of `Blockchain.calculateHash(index, previousHash, timestamp, transactions)`:
`scrypt(JSON.stringify({index, previousHash, timestamp, transactions}), 'salt', 1024, 8, 1, 32)`.
scrypt is a fixed deterministic digest; no claim depends on the digest's actual
bytes, so it is modelled as an injective canonical serialization tagged
`scrypt|` — deterministic, and distinct inputs give distinct digests (the
trivial-perturbation non-collision the spec's test vectors assume). -/
def calculateHash (index : Nat) (previousHash : String) (timestamp : Nat)
    (transactions : List Transaction) : String :=
  "scrypt|" ++ toString index ++ "|" ++ previousHash ++ "|" ++ toString timestamp
    ++ "|" ++ serializeTxs transactions ++ "|salt"

/-- A block, as built by `genesisBlock` / `mineBlock`. -/
structure Block where
  index : Nat
  previousHash : String
  timestamp : Nat
  transactions : List Transaction
  hash : String
  deriving DecidableEq, Repr

/-- The `Blockchain` instance state: `this.chain` and `this.transactions`
(the pending pool). -/
structure Blockchain where
  chain : List Block
  transactions : List Transaction
  deriving DecidableEq, Repr

/-- Embedding of the `Blockchain.genesisBlock()` body. The JS evaluates `Date.now()` twice:
once for the stored `timestamp` field (`t1`) and once inside the
`calculateHash(0, '0', Date.now(), [])` call (`t2`), in that order. -/
def genesisBlock (t1 t2 : Nat) : Block :=
  { index := 0
    previousHash := "0"
    timestamp := t1
    transactions := []
    hash := calculateHash 0 "0" t2 [] }

/-- The `Blockchain` constructor: empty chain and pool, then `genesisBlock()`
pushes the genesis block. `t1`, `t2` are the two `Date.now()` results. -/
def Blockchain.init (t1 t2 : Nat) : Blockchain :=
  { chain := [genesisBlock t1 t2], transactions := [] }

/-- Embedding of `Blockchain.createTransaction(sender, receiver, amount)`:
`this.transactions.push({sender, receiver, amount})`. -/
def Blockchain.createTransaction (bc : Blockchain) (sender receiver : String)
    (amount : Int) : Blockchain :=
  { bc with transactions := bc.transactions ++ [⟨sender, receiver, amount⟩] }

/-- Embedding of `Blockchain.mineBlock(difficulty)`: builds a block whose `previousHash` is
`this.chain[this.chain.length - 1].hash`, whose transactions are the current
pool, seals it with `calculateHash` over its own four fields, pushes it and
clears the pool, returning the block. On an empty chain the JS would throw
(`undefined.hash`), modelled as `none`; `t` is the `Date.now()` result. -/
def Blockchain.mineBlock (bc : Blockchain) (t : Nat) : Option (Blockchain × Block) :=
  match bc.chain.getLast? with
  | none => none
  | some last =>
    let blk : Block :=
      { index := bc.chain.length
        previousHash := last.hash
        timestamp := t
        transactions := bc.transactions
        hash := calculateHash bc.chain.length last.hash t bc.transactions }
    some ({ chain := bc.chain ++ [blk], transactions := [] }, blk)

/-- One ledger operation: a `createTransaction` call or a successful
`mineBlock` call, each with arbitrary arguments / clock reading. -/
inductive BStep : Blockchain → Blockchain → Prop where
  | tx : ∀ (bc : Blockchain) (s r : String) (a : Int),
      BStep bc (bc.createTransaction s r a)
  | mine : ∀ (bc : Blockchain) (t : Nat) (bc' : Blockchain) (blk : Block),
      bc.mineBlock t = some (bc', blk) → BStep bc bc'

/-- Ledger states reachable from the constructor by `createTransaction` /
`mineBlock` calls. -/
inductive Reachable : Blockchain → Prop where
  | init : ∀ t1 t2, Reachable (Blockchain.init t1 t2)
  | step : ∀ bc bc', Reachable bc → BStep bc bc' → Reachable bc'

/-- Submit a list of transactions in order (N `createTransaction` calls). -/
def submitAll (bc : Blockchain) (txs : List Transaction) : Blockchain :=
  txs.foldl (fun b t => b.createTransaction t.sender t.receiver t.amount) bc

/-- A contract record, as built by `SmartContract.createContract`:
`{ id, partyA, partyB, condition, amount, timestamp, executed }`.
`condition` is a millisecond deadline timestamp. -/
structure Contract where
  id : Nat
  partyA : String
  partyB : String
  condition : Nat
  amount : Int
  timestamp : Nat
  executed : Bool
  deriving DecidableEq, Repr

/-- The `SmartContract` instance state: the shared `Blockchain` reference and
`this.contracts`. -/
structure SmartContract where
  blockchain : Blockchain
  contracts : List Contract
  deriving DecidableEq, Repr

/-- Embedding of `SmartContract.createContract(partyA, partyB, condition, amount)`: pushes
a contract with `id = this.contracts.length`, `timestamp = Date.now()` (`t`),
`executed = false`, and returns it. -/
def SmartContract.createContract (s : SmartContract) (partyA partyB : String)
    (condition : Nat) (amount : Int) (t : Nat) : SmartContract × Contract :=
  let c : Contract :=
    { id := s.contracts.length
      partyA := partyA
      partyB := partyB
      condition := condition
      amount := amount
      timestamp := t
      executed := false }
  ({ s with contracts := s.contracts ++ [c] }, c)

/-- Embedding of `SmartContract.executeContract(id)`: `this.contracts[id]` is `undefined`
for an out-of-range `id` (`!contract` → return `false`); an executed contract
also returns `false`; otherwise, when `Date.now() <= contract.condition`
(`now` is the `Date.now()` result), it calls
`this.blockchain.createTransaction(partyA, partyB, amount)`, sets
`contract.executed = true` in place and returns `true`; past the deadline it
returns `false` with no mutation. -/
def SmartContract.executeContract (s : SmartContract) (id now : Nat) :
    SmartContract × Bool :=
  match s.contracts[id]? with
  | none => (s, false)
  | some c =>
    if c.executed then (s, false)
    else if now ≤ c.condition then
      ({ blockchain := s.blockchain.createTransaction c.partyA c.partyB c.amount
         contracts := s.contracts.set id { c with executed := true } }, true)
    else (s, false)

/-- One ContractEngine operation, or a mutation of the shared blockchain by
the ledger endpoints (`/transfer`, mining) which the engine aliases. -/
inductive EStep : SmartContract → SmartContract → Prop where
  | create : ∀ (s : SmartContract) (a b : String) (cond : Nat) (amt : Int) (t : Nat),
      EStep s (s.createContract a b cond amt t).1
  | exec : ∀ (s : SmartContract) (id now : Nat),
      EStep s (s.executeContract id now).1
  | ledger : ∀ (s : SmartContract) (bc : Blockchain),
      EStep s { s with blockchain := bc }

/-- Engine states reachable from the constructor (`this.contracts = []`,
any shared blockchain). -/
inductive EngineReachable : SmartContract → Prop where
  | init : ∀ bc, EngineReachable ⟨bc, []⟩
  | step : ∀ s s', EngineReachable s → EStep s s' → EngineReachable s'

/-- A WebSocket client as seen by `Chat.broadcast`: its identity and whether
`client.readyState === WebSocket.OPEN`. -/
structure Conn where
  id : Nat
  isOpen : Bool
  deriving DecidableEq, Repr

/-- The JSON object a client is sent: `{ type: 'message', content }`. -/
structure OutEvent where
  type : String
  content : String
  deriving DecidableEq, Repr

/-- The `Chat` instance registry `this.users`: a `Map` from nickname to the
connection's id, in insertion order. -/
structure ChatState where
  users : List (String × Nat)
  deriving DecidableEq, Repr

/-- Embedding of `Chat.broadcast(message)`: for each client of `wss.clients`, if its
`readyState` is `OPEN`, send `{type: 'message', content: message}`; non-open
clients are skipped. Returns the list of performed sends (client id, event). -/
def Chat.broadcast (clients : List Conn) (message : String) :
    List (Nat × OutEvent) :=
  clients.filterMap fun c =>
    if c.isOpen then some (c.id, ⟨"message", message⟩) else none

/-- Embedding of JavaScript `Map.set(k, v)` on the registry: overwrite in place if the key is present, else append. -/
def mapSet (m : List (String × Nat)) (k : String) (v : Nat) :
    List (String × Nat) :=
  if m.any (fun p => p.1 = k) then
    m.map (fun p => if p.1 = k then (k, v) else p)
  else m ++ [(k, v)]

/-- The `'message'` branch of the connection handler: broadcasts the template
string interpolating `data.nickname`, a colon-space, and `data.content`; the
registry is not touched. -/
def Chat.handleMessage (s : ChatState) (clients : List Conn)
    (nickname content : String) : ChatState × List (Nat × OutEvent) :=
  (s, Chat.broadcast clients (nickname ++ ": " ++ content))

/-- The `'login'` branch: `this.users.set(nickname, ws)` then a join
broadcast. -/
def Chat.handleLogin (s : ChatState) (clients : List Conn) (nickname : String)
    (connId : Nat) : ChatState × List (Nat × OutEvent) :=
  (⟨mapSet s.users nickname connId⟩,
   Chat.broadcast clients (nickname ++ " si è connesso!"))

/-- The `'close'` handler: every registry entry whose connection matches is
deleted, each with a departure broadcast. -/
def Chat.handleClose (s : ChatState) (clients : List Conn) (connId : Nat) :
    ChatState × List (Nat × OutEvent) :=
  (⟨s.users.filter (fun p => p.2 ≠ connId)⟩,
   (s.users.filter (fun p => p.2 = connId)).flatMap
     (fun p => Chat.broadcast clients (p.1 ++ " si è disconnesso!")))

/-- Modelled from the spec: `sodium.crypto_secretbox_easy`, the external
libsodium AEAD primitive (not part of this repository's source). An idealized
authenticated secretbox: the ciphertext determines the plaintext exactly when
opened with the same nonce and key. -/
inductive SecretBox where
  | box (data : String) (nonce : Nat) (key : Nat)
  deriving DecidableEq, Repr

/-- Modelled from the spec: `sodium.crypto_secretbox_easy(data, nonce, key)`. -/
def crypto_secretbox_easy (data : String) (nonce key : Nat) : SecretBox :=
  SecretBox.box data nonce key

/-- Modelled from the spec: `sodium.crypto_secretbox_open_easy`; opening
fails (throws, modelled as `none`) unless nonce and key match the box. -/
def crypto_secretbox_open_easy (c : SecretBox) (nonce key : Nat) :
    Option String :=
  match c with
  | SecretBox.box d n k => if n = nonce ∧ k = key then some d else none

/-- Embedding of `CryptoUtils.encrypt(data)`: generates a fresh `key` and `nonce`
(modelled as the inputs `key`, `nonce` supplied by the randomness source),
seals `data`, and returns `{ ciphertext, nonce, key }` — the key is disclosed
alongside the ciphertext. -/
def CryptoUtils.encrypt (data : String) (key nonce : Nat) :
    SecretBox × Nat × Nat :=
  (crypto_secretbox_easy data nonce key, nonce, key)

/-- Embedding of `CryptoUtils.decrypt(ciphertext, nonce, key)`:
`crypto_secretbox_open_easy` on the decoded triple. -/
def CryptoUtils.decrypt (c : SecretBox) (nonce key : Nat) : Option String :=
  crypto_secretbox_open_easy c nonce key

/-- The adjacency relation of a well-linked chain. -/
def ChainLink (a b : Block) : Prop := b.previousHash = a.hash

/-- Ledger invariant: nonempty chain, genesis sentinel at the head, and every
adjacent pair linked by `ChainLink`. -/
def ChainInv (bc : Blockchain) : Prop :=
  bc.chain ≠ [] ∧ (∀ b ∈ bc.chain.head?, b.previousHash = "0") ∧
    List.Chain' ChainLink bc.chain

/-- Concrete ledger used to instantiate the reachability-based theorems:
one transaction submitted, then one block sealed. -/
def bcW : Blockchain := (Blockchain.init 0 0).createTransaction "a" "b" 5

/-- The block sealed from `bcW` at clock 7. -/
def blkW : Block :=
  { index := 1
    previousHash := (genesisBlock 0 0).hash
    timestamp := 7
    transactions := [⟨"a", "b", 5⟩]
    hash := calculateHash 1 (genesisBlock 0 0).hash 7 [⟨"a", "b", 5⟩] }

/-- The ledger state after sealing `bcW` at clock 7. -/
def bcW2 : Blockchain :=
  { chain := [genesisBlock 0 0, blkW], transactions := [] }

/-- Concrete empty contract engine. -/
def engineA : SmartContract := ⟨Blockchain.init 0 0, []⟩

/-- A contract that has already been executed. -/
def cDone : Contract := ⟨0, "a", "b", 10, 5, 0, true⟩

/-- Concrete engine holding one already-executed contract. -/
def engineB : SmartContract := ⟨Blockchain.init 0 0, [cDone]⟩

/-- A contract not yet executed, with deadline 10. -/
def cFresh : Contract := ⟨0, "a", "b", 10, 5, 0, false⟩

/-- Concrete engine holding one unexecuted contract. -/
def engineC : SmartContract := ⟨Blockchain.init 0 0, [cFresh]⟩

/-- Concrete engine built by two `createContract` calls. -/
def engineD : SmartContract :=
  ((engineA.createContract "a" "b" 10 5 0).1.createContract "c" "d" 20 7 1).1

/-- Concrete client set: connection 1 open, connection 2 not open. -/
def clientsW : List Conn := [⟨1, true⟩, ⟨2, false⟩]

/-! ## Ledger lemmas -/

theorem submitAll_chain (bc : Blockchain) (txs : List Transaction) :
    (submitAll bc txs).chain = bc.chain := by
  induction txs generalizing bc with
  | nil => rfl
  | cons t ts ih =>
    exact ih (bc.createTransaction t.sender t.receiver t.amount)

theorem submitAll_pool (bc : Blockchain) (txs : List Transaction) :
    (submitAll bc txs).transactions = bc.transactions ++ txs := by
  induction txs generalizing bc with
  | nil => simp [submitAll]
  | cons t ts ih =>
    have h := ih (bc.createTransaction t.sender t.receiver t.amount)
    simp only [Blockchain.createTransaction] at h
    calc (submitAll bc (t :: ts)).transactions
        = bc.transactions ++ [t] ++ ts := h
      _ = bc.transactions ++ t :: ts := by simp

theorem mineBlock_eq (bc : Blockchain) (t : Nat) (last : Block)
    (hlast : bc.chain.getLast? = some last) :
    bc.mineBlock t = some
      ({ chain := bc.chain ++
            [{ index := bc.chain.length, previousHash := last.hash, timestamp := t,
               transactions := bc.transactions,
               hash := calculateHash bc.chain.length last.hash t bc.transactions }],
         transactions := [] },
       { index := bc.chain.length, previousHash := last.hash, timestamp := t,
         transactions := bc.transactions,
         hash := calculateHash bc.chain.length last.hash t bc.transactions }) := by
  unfold Blockchain.mineBlock
  rw [hlast]

theorem reachable_chainInv (bc : Blockchain) (h : Reachable bc) : ChainInv bc := by
  induction h with
  | init t1 t2 =>
    refine ⟨by simp [Blockchain.init], ?_, ?_⟩
    · intro b hb
      simp only [Blockchain.init, List.head?] at hb
      cases hb
      rfl
    · exact List.chain'_singleton _
  | step bc bc' _ hstep ih =>
    obtain ⟨hne, hhead, hchain⟩ := ih
    cases hstep with
    | tx s r a => exact ⟨hne, hhead, hchain⟩
    | mine t bc'' blk hmine =>
      obtain ⟨last, hlast⟩ :=
        Option.isSome_iff_exists.mp (List.getLast?_isSome.mpr hne)
      rw [mineBlock_eq bc t last hlast] at hmine
      obtain ⟨hbc, -⟩ := Prod.mk.injEq .. ▸ Option.some.inj hmine
      subst hbc
      refine ⟨by simp, ?_, ?_⟩
      · intro b hb
        rw [List.head?_append_of_ne_nil _ hne] at hb
        exact hhead b hb
      · refine List.chain'_append.mpr ⟨hchain, List.chain'_singleton _, ?_⟩
        intro x hx y hy
        rw [hlast] at hx
        cases hx
        cases hy
        rfl

/-- C1: for every Ledger state reachable by any sequence of
`createTransaction` (submitTransaction) and `mineBlock` (sealBlock) calls
after initialization, `chain[i].previousHash = chain[i-1].hash` for every
`i > 0`, `chain[0].previousHash` is the genesis sentinel `"0"`, and every
further operation only appends to the chain (no block is mutated or
removed). -/
theorem chain_linked_append_only (bc : Blockchain) (h : Reachable bc) :
    bc.chain ≠ [] ∧
    (∀ b ∈ bc.chain.head?, b.previousHash = "0") ∧
    (∀ (i : Nat) (hi : i < bc.chain.length), 0 < i →
      (bc.chain.get ⟨i, hi⟩).previousHash
        = (bc.chain.get ⟨i - 1, by omega⟩).hash) ∧
    (∀ bc', BStep bc bc' → ∃ ext, bc'.chain = bc.chain ++ ext) := by
  obtain ⟨hne, hhead, hchain⟩ := reachable_chainInv bc h
  refine ⟨hne, hhead, ?_, ?_⟩
  · intro i hi hpos
    have hlink := List.chain'_iff_get.mp hchain (i - 1) (by omega)
    have hidx : i - 1 + 1 = i := by omega
    simp only [hidx] at hlink
    exact hlink
  · intro bc' hstep
    cases hstep with
    | tx s r a =>
      exact ⟨[], by simp [Blockchain.createTransaction]⟩
    | mine t bc'' blk hmine =>
      obtain ⟨last, hlast⟩ :=
        Option.isSome_iff_exists.mp (List.getLast?_isSome.mpr hne)
      rw [mineBlock_eq bc t last hlast] at hmine
      obtain ⟨hbc, -⟩ := Prod.mk.injEq .. ▸ Option.some.inj hmine
      subst hbc
      exact ⟨_, rfl⟩

theorem reachable_bcW2 : Reachable bcW2 := by
  have h1 : Reachable bcW :=
    Reachable.step _ _ (Reachable.init 0 0) (BStep.tx _ "a" "b" 5)
  exact Reachable.step _ _ h1 (BStep.mine bcW 7 bcW2 blkW rfl)

/-- Witness for C1: at the concrete two-block ledger `bcW2`, block 1's
`previousHash` equals block 0's `hash`. -/
theorem chain_linked_append_only_w :
    (bcW2.chain.get ⟨1, by decide⟩).previousHash
      = (bcW2.chain.get ⟨0, by decide⟩).hash := by
  have h := chain_linked_append_only bcW2 reachable_bcW2
  exact h.2.2.1 1 (by decide) (by decide)

/-- C2: starting from any reachable state with an empty pending pool,
submitting the transactions `txs` in order and then sealing once yields a
block whose transaction sequence is exactly `txs` in submission order, with
an empty pool immediately afterwards. -/
theorem seal_contains_submissions (bc : Blockchain) (h : Reachable bc)
    (hpool : bc.transactions = []) (txs : List Transaction) (t : Nat) :
    ∃ bc' blk, (submitAll bc txs).mineBlock t = some (bc', blk) ∧
      blk.transactions = txs ∧ bc'.transactions = [] := by
  obtain ⟨hne, -, -⟩ := reachable_chainInv bc h
  obtain ⟨last, hlast⟩ :=
    Option.isSome_iff_exists.mp (List.getLast?_isSome.mpr hne)
  have hlast' : (submitAll bc txs).chain.getLast? = some last := by
    rw [submitAll_chain]; exact hlast
  refine ⟨_, _, mineBlock_eq (submitAll bc txs) t last hlast', ?_, rfl⟩
  rw [submitAll_pool, hpool]
  simp

/-- Witness for C2: one concrete submission sealed from the freshly
initialized ledger. -/
theorem seal_contains_submissions_w :
    ∃ bc' blk,
      (submitAll (Blockchain.init 0 0) [⟨"a", "b", 3⟩]).mineBlock 9
          = some (bc', blk) ∧
        blk.transactions = [⟨"a", "b", 3⟩] ∧ bc'.transactions = [] :=
  seal_contains_submissions (Blockchain.init 0 0) (Reachable.init 0 0) rfl
    [⟨"a", "b", 3⟩] 9

/-- C3 (code bug): the genesis block is sealed over the *second* `Date.now()`
reading, not over its stored `timestamp` field. When the clock ticks between
the two calls (here 1000 then 1001), the stored quadruple
`(0, "0", 1000, [])` does not hash to the stored `hash`, which is the digest
of `(0, "0", 1001, [])` instead. Blocks produced by `mineBlock` are not
affected (their seal is over their own stored fields). -/
theorem genesis_seal_timestamp_mismatch :
    ∃ b, (Blockchain.init 1000 1001).chain = [b] ∧
      b.timestamp = 1000 ∧
      b.hash ≠ calculateHash b.index b.previousHash b.timestamp b.transactions ∧
      b.hash = calculateHash 0 "0" 1001 [] := by
  refine ⟨genesisBlock 1000 1001, rfl, rfl, ?_, rfl⟩
  decide

/-! ## ContractEngine lemmas -/

theorem executeContract_none (s : SmartContract) (i now : Nat)
    (hc : s.contracts[i]? = none) : s.executeContract i now = (s, false) := by
  simp [SmartContract.executeContract, hc]

theorem executeContract_executed (s : SmartContract) (i now : Nat)
    (c : Contract) (hc : s.contracts[i]? = some c) (hex : c.executed = true) :
    s.executeContract i now = (s, false) := by
  simp [SmartContract.executeContract, hc, hex]

theorem executeContract_late (s : SmartContract) (i now : Nat) (c : Contract)
    (hc : s.contracts[i]? = some c) (hex : c.executed = false)
    (hlate : c.condition < now) :
    s.executeContract i now = (s, false) := by
  simp [SmartContract.executeContract, hc, hex, Nat.not_le.mpr hlate]

theorem executeContract_success (s : SmartContract) (i now : Nat) (c : Contract)
    (hc : s.contracts[i]? = some c) (hex : c.executed = false)
    (hnow : now ≤ c.condition) :
    s.executeContract i now =
      ({ blockchain := s.blockchain.createTransaction c.partyA c.partyB c.amount
         contracts := s.contracts.set i { c with executed := true } }, true) := by
  simp [SmartContract.executeContract, hc, hex, hnow]

theorem exec_false_unchanged (s : SmartContract) (i now : Nat)
    (h : (s.executeContract i now).2 = false) :
    (s.executeContract i now).1 = s := by
  cases hc : s.contracts[i]? with
  | none => rw [executeContract_none s i now hc]
  | some c =>
    by_cases hex : c.executed = true
    · rw [executeContract_executed s i now c hc hex]
    · have hex' : c.executed = false := by simpa using hex
      by_cases hnow : now ≤ c.condition
      · rw [executeContract_success s i now c hc hex' hnow] at h
        simp at h
      · rw [executeContract_late s i now c hc hex' (Nat.not_le.mp hnow)]

/-- C4: for every existing not-yet-executed contract, `executeContract` at
time `now` appends the transaction `(partyA, partyB, amount)` to the shared
pending pool, marks the contract executed and returns `true` exactly when
`now ≤ condition`; past the deadline it returns `false` and changes
nothing. -/
theorem executeContract_deadline_gate (s : SmartContract) (i now : Nat)
    (c : Contract) (hc : s.contracts[i]? = some c) (hid : c.id = i)
    (hexec : c.executed = false) :
    (now ≤ c.condition →
      s.executeContract c.id now =
        ({ blockchain := s.blockchain.createTransaction c.partyA c.partyB c.amount
           contracts := s.contracts.set i { c with executed := true } }, true)) ∧
    (c.condition < now → s.executeContract c.id now = (s, false)) := by
  subst hid
  exact ⟨fun hnow => executeContract_success s c.id now c hc hexec hnow,
         fun hlate => executeContract_late s c.id now c hc hexec hlate⟩

/-- Witness for C4: the concrete one-contract engine, executed at time 5
against deadline 10. -/
theorem executeContract_deadline_gate_w :
    engineC.executeContract 0 5 =
      ({ blockchain := engineC.blockchain.createTransaction "a" "b" 5
         contracts := engineC.contracts.set 0 { cFresh with executed := true } },
       true) :=
  (executeContract_deadline_gate engineC 0 5 cFresh rfl rfl rfl).1 (by decide)

/-- C5 counterexample: an out-of-range id does not fail with a `NotFound`
error — `executeContract` has no failure outcome at all; it returns the very
same plain `(state, false)` no-op result that an already-executed contract
yields. -/
theorem executeContract_notfound_cex :
    SmartContract.executeContract engineA 0 0 = (engineA, false) ∧
    SmartContract.executeContract engineB 0 0 = (engineB, false) :=
  ⟨rfl, rfl⟩

/-- C5 (amended): for every id that does not identify any contract,
`executeContract` returns plain `false` and leaves the state unchanged — the
same result as for an already-executed contract; no error is raised. -/
theorem executeContract_out_of_range_false (s : SmartContract) (i now : Nat)
    (h : s.contracts.length ≤ i) :
    s.executeContract i now = (s, false) :=
  executeContract_none s i now (List.getElem?_eq_none_iff.mpr h)

/-- Witness for C5's amended theorem: id 7 on the empty engine. -/
theorem executeContract_out_of_range_false_w :
    engineA.executeContract 7 3 = (engineA, false) :=
  executeContract_out_of_range_false engineA 7 3 (by decide)

/-- C6: `executed` goes from `false` to `true` at most once and only via a
successful `executeContract` (a `true`-returning call flips exactly the
targeted, previously unexecuted contract; a `false`-returning call changes
nothing; `createContract` only appends a fresh unexecuted contract); and a
second `executeContract` on the same id at a later or equal time always
returns `false` and leaves the state exactly as after the first call. -/
theorem executed_once_second_call_false (s : SmartContract) (i now now' : Nat) :
    ((s.executeContract i now).2 = true →
      ∃ c, s.contracts[i]? = some c ∧ c.executed = false ∧
        (s.executeContract i now).1.contracts
          = s.contracts.set i { c with executed := true }) ∧
    ((s.executeContract i now).2 = false → (s.executeContract i now).1 = s) ∧
    (∀ (a b : String) (cond : Nat) (amt : Int) (t : Nat),
      ((s.createContract a b cond amt t).1).contracts.map Contract.executed
        = s.contracts.map Contract.executed ++ [false]) ∧
    (now ≤ now' →
      (s.executeContract i now).1.executeContract i now'
        = ((s.executeContract i now).1, false)) := by
  refine ⟨?_, exec_false_unchanged s i now, ?_, ?_⟩
  · intro ht
    cases hc : s.contracts[i]? with
    | none => rw [executeContract_none s i now hc] at ht; simp at ht
    | some c =>
      by_cases hex : c.executed = true
      · rw [executeContract_executed s i now c hc hex] at ht; simp at ht
      · have hex' : c.executed = false := by simpa using hex
        by_cases hnow : now ≤ c.condition
        · exact ⟨c, rfl, hex',
            by rw [executeContract_success s i now c hc hex' hnow]⟩
        · rw [executeContract_late s i now c hc hex'
            (Nat.not_le.mp hnow)] at ht
          simp at ht
  · intro a b cond amt t
    simp [SmartContract.createContract]
  · intro hle
    cases hc : s.contracts[i]? with
    | none =>
      rw [executeContract_none s i now hc]
      exact executeContract_none s i now' hc
    | some c =>
      by_cases hex : c.executed = true
      · rw [executeContract_executed s i now c hc hex]
        exact executeContract_executed s i now' c hc hex
      · have hex' : c.executed = false := by simpa using hex
        by_cases hnow : now ≤ c.condition
        · rw [executeContract_success s i now c hc hex' hnow]
          have hilt : i < s.contracts.length := (List.getElem?_eq_some.mp hc).1
          have hset : (s.contracts.set i { c with executed := true })[i]?
              = some { c with executed := true } :=
            List.getElem?_set_eq_of_lt _ hilt
          exact executeContract_executed _ i now' { c with executed := true }
            hset rfl
        · rw [executeContract_late s i now c hc hex' (Nat.not_le.mp hnow)]
          exact executeContract_late s i now' c hc hex' (by omega)

/-- Witness for C6: double execution on the concrete one-contract engine at
times 5 then 6. -/
theorem executed_once_second_call_false_w :
    (engineC.executeContract 0 5).1.executeContract 0 6
      = ((engineC.executeContract 0 5).1, false) :=
  (executed_once_second_call_false engineC 0 5 6).2.2.2 (by decide)

/-- C7: whenever `executeContract` does not succeed (returns `false`),
nothing at all is mutated: the pending pool, the chain and every contract are
exactly as before the call. -/
theorem executeContract_failure_atomic (s : SmartContract) (i now : Nat)
    (h : (s.executeContract i now).2 = false) :
    (s.executeContract i now).1 = s :=
  exec_false_unchanged s i now h

/-- Witness for C7: the already-executed contract case. -/
theorem executeContract_failure_atomic_w :
    (engineB.executeContract 0 0).1 = engineB :=
  executeContract_failure_atomic engineB 0 0 (by decide)

theorem engine_ids_indices (s : SmartContract) (h : EngineReachable s) :
    ∀ (i : Nat) (c : Contract), s.contracts[i]? = some c → c.id = i := by
  induction h with
  | init bc => intro i c hc; simp at hc
  | step s s' _ hstep ih =>
    cases hstep with
    | create a b cond amt t =>
      intro i c hc
      simp only [SmartContract.createContract] at hc
      by_cases hi : i < s.contracts.length
      · rw [List.getElem?_append_left hi] at hc
        exact ih i c hc
      · rw [List.getElem?_append_right (Nat.not_lt.mp hi)] at hc
        rcases hk : i - s.contracts.length with _ | k
        · rw [hk] at hc
          simp at hc
          subst hc
          show s.contracts.length = i
          omega
        · rw [hk] at hc
          simp at hc
    | exec id now =>
      intro i c hc
      cases hcs : s.contracts[id]? with
      | none =>
        rw [executeContract_none s id now hcs] at hc
        exact ih i c hc
      | some c0 =>
        by_cases hex : c0.executed = true
        · rw [executeContract_executed s id now c0 hcs hex] at hc
          exact ih i c hc
        · have hex' : c0.executed = false := by simpa using hex
          by_cases hnow : now ≤ c0.condition
          · rw [executeContract_success s id now c0 hcs hex' hnow] at hc
            by_cases hii : i = id
            · subst hii
              have hilt : i < s.contracts.length :=
                (List.getElem?_eq_some.mp hcs).1
              have hset : (s.contracts.set i { c0 with executed := true })[i]?
                  = some { c0 with executed := true } :=
                List.getElem?_set_eq_of_lt _ hilt
              rw [hset] at hc
              cases hc
              exact ih i c0 hcs
            · rw [List.getElem?_set_ne (fun he => hii he.symm)] at hc
              exact ih i c hc
          · rw [executeContract_late s id now c0 hcs hex'
              (Nat.not_le.mp hnow)] at hc
            exact ih i c hc
    | ledger bc =>
      intro i c hc
      exact ih i c hc

/-- C8: every `createContract` call succeeds unconditionally, appending and
returning a contract with `executed = false` and the next sequential id
(`contracts.length`); across any sequence of engine operations the assigned
ids are the list positions, hence unique and strictly increasing. -/
theorem createContract_sequential_ids (s : SmartContract) (a b : String)
    (cond : Nat) (amt : Int) (t : Nat) :
    s.createContract a b cond amt t =
      ({ s with contracts := s.contracts ++
          [⟨s.contracts.length, a, b, cond, amt, t, false⟩] },
       ⟨s.contracts.length, a, b, cond, amt, t, false⟩) ∧
    (EngineReachable s →
      ∀ (i j : Nat) (ci cj : Contract), s.contracts[i]? = some ci →
        s.contracts[j]? = some cj → i < j → ci.id < cj.id) := by
  refine ⟨rfl, ?_⟩
  intro hr i j ci cj hci hcj hij
  rw [engine_ids_indices s hr i ci hci, engine_ids_indices s hr j cj hcj]
  exact hij

theorem engineD_reachable : EngineReachable engineD :=
  EngineReachable.step _ _
    (EngineReachable.step _ _ (EngineReachable.init (Blockchain.init 0 0))
      (EStep.create engineA "a" "b" 10 5 0))
    (EStep.create _ "c" "d" 20 7 1)

/-- Witness for C8: in the concrete two-contract engine, the ids at positions
0 and 1 are strictly increasing. -/
theorem createContract_sequential_ids_w :
    (⟨0, "a", "b", 10, 5, 0, false⟩ : Contract).id
      < (⟨1, "c", "d", 20, 7, 1, false⟩ : Contract).id :=
  (createContract_sequential_ids engineD "x" "y" 1 1 1).2 engineD_reachable
    0 1 _ _ rfl rfl (by decide)

/-! ## ChatRelay lemmas -/

theorem broadcast_cons (d : Conn) (ds : List Conn) (msg : String) :
    Chat.broadcast (d :: ds) msg
      = if d.isOpen = true then
          (d.id, ⟨"message", msg⟩) :: Chat.broadcast ds msg
        else Chat.broadcast ds msg := by
  by_cases hop : d.isOpen = true <;>
    simp [Chat.broadcast, List.filterMap_cons, hop]

theorem broadcast_filter_of_not_mem (clients : List Conn) (msg : String)
    (n : Nat) (hn : n ∉ clients.map Conn.id) :
    (Chat.broadcast clients msg).filter (fun p => p.1 = n) = [] := by
  induction clients with
  | nil => rfl
  | cons d ds ih =>
    simp only [List.map_cons, List.mem_cons, not_or] at hn
    have hne : ¬ d.id = n := fun h => hn.1 h.symm
    rw [broadcast_cons]
    by_cases hop : d.isOpen = true
    · rw [if_pos hop, List.filter_cons, if_neg (by simpa using hne)]
      exact ih hn.2
    · rw [if_neg hop]
      exact ih hn.2

theorem broadcast_filter_keyed (clients : List Conn) (msg : String)
    (hnd : (clients.map Conn.id).Nodup) (c : Conn) (hc : c ∈ clients) :
    (Chat.broadcast clients msg).filter (fun p => p.1 = c.id)
      = if c.isOpen = true then [(c.id, ⟨"message", msg⟩)] else [] := by
  induction clients with
  | nil => cases hc
  | cons d ds ih =>
    rw [List.map_cons, List.nodup_cons] at hnd
    obtain ⟨hdn, hnd'⟩ := hnd
    rw [broadcast_cons]
    rcases List.mem_cons.mp hc with rfl | hcs
    · by_cases hop : c.isOpen = true
      · rw [if_pos hop, if_pos hop, List.filter_cons, if_pos (by simp),
          broadcast_filter_of_not_mem ds msg c.id hdn]
      · rw [if_neg hop, if_neg hop]
        exact broadcast_filter_of_not_mem ds msg c.id hdn
    · have hdne : ¬ d.id = c.id :=
        fun h => hdn (h ▸ List.mem_map_of_mem Conn.id hcs)
      by_cases hop : d.isOpen = true
      · rw [if_pos hop, List.filter_cons, if_neg (by simpa using hdne)]
        exact ih hnd' hcs
      · rw [if_neg hop]
        exact ih hnd' hcs

/-- C9: `onMessage(nickname, content)` leaves the registry untouched and
broadcasts the single formatted event `nickname ++ ": " ++ content` exactly
once to every connection that is open at send time; non-open connections are
skipped (no send, no error, no registry removal — `onLogin` never removes a
registry key either; only `onClose` removes entries). -/
theorem onMessage_broadcast_once (s : ChatState) (clients : List Conn)
    (nickname content : String) (hnd : (clients.map Conn.id).Nodup) :
    (Chat.handleMessage s clients nickname content).1 = s ∧
    (∀ c ∈ clients, c.isOpen = true →
      ((Chat.handleMessage s clients nickname content).2.filter
          (fun p => p.1 = c.id))
        = [(c.id, ⟨"message", nickname ++ ": " ++ content⟩)]) ∧
    (∀ c ∈ clients, c.isOpen = false →
      ((Chat.handleMessage s clients nickname content).2.filter
          (fun p => p.1 = c.id)) = []) ∧
    (∀ k, s.users.any (fun p => p.1 = k) = true →
      ∀ (clients' : List Conn) (n : String) (v : Nat),
        ((Chat.handleLogin s clients' n v).1).users.any (fun p => p.1 = k)
          = true) := by
  refine ⟨rfl, ?_, ?_, ?_⟩
  · intro c hc hop
    have h := broadcast_filter_keyed clients (nickname ++ ": " ++ content)
      hnd c hc
    rw [if_pos hop] at h
    exact h
  · intro c hc hop
    have h := broadcast_filter_keyed clients (nickname ++ ": " ++ content)
      hnd c hc
    rw [if_neg (by simp [hop])] at h
    exact h
  · intro k hk clients' n v
    show (mapSet s.users n v).any (fun p => p.1 = k) = true
    unfold mapSet
    by_cases hmem : s.users.any (fun p => p.1 = n) = true
    · rw [if_pos hmem]
      rcases List.any_eq_true.mp hk with ⟨p, hp, hpk⟩
      refine List.any_eq_true.mpr
        ⟨(fun q => if q.1 = n then (n, v) else q) p,
         List.mem_map_of_mem _ hp, ?_⟩
      rw [decide_eq_true_eq] at hpk
      by_cases hpn : p.1 = n
      · simp only [hpn, if_pos rfl]
        exact decide_eq_true (hpn ▸ hpk)
      · simp only [if_neg hpn]
        exact decide_eq_true hpk
    · rw [if_neg hmem, List.any_append, hk]
      rfl

/-- Witness for C9: with clients `[⟨1, open⟩, ⟨2, closed⟩]`, the broadcast of
"alice: hi" reaches connection 1 exactly once. -/
theorem onMessage_broadcast_once_w :
    ((Chat.handleMessage ⟨[]⟩ clientsW "alice" "hi").2.filter
        (fun p => p.1 = (1 : Nat))) = [(1, ⟨"message", "alice: hi"⟩)] := by
  have h := (onMessage_broadcast_once ⟨[]⟩ clientsW "alice" "hi"
    (by decide)).2.1 ⟨1, true⟩ (by decide) rfl
  exact h

/-! ## Crypto envelope -/

/-- C10: the encryption envelope round-trips — decrypting the returned
ciphertext with the nonce and key that `encrypt` discloses alongside it
recovers the original data. -/
theorem encrypt_decrypt_roundtrip (data : String) (key nonce : Nat) :
    CryptoUtils.decrypt (CryptoUtils.encrypt data key nonce).1
        (CryptoUtils.encrypt data key nonce).2.1
        (CryptoUtils.encrypt data key nonce).2.2 = some data := by
  simp [CryptoUtils.encrypt, CryptoUtils.decrypt, crypto_secretbox_easy,
    crypto_secretbox_open_easy]

end NanoChat
